import Mathlib

/-!
Verification of the arc flux core: a shallow embedding of the signal log,
the replay engine (`FluxState::from_signals` in `src/state.rs`), the stats
aggregator (`FluxState::command_stats`), the undo-candidate scan
(`commands::undo` in `src/commands/mod.rs`), and the signal store
(`FluxProject` in `src/signals.rs`), together with theorems checking the
natural-language specification against these definitions.
-/

namespace Arc

/-- Model of a `serde_json::Value`. Floating-point numbers do not occur in
any payload the core reads, so numbers are modelled as unbounded integers
with the `as_i64` / `as_u64` range checks made explicit. -/
inductive Json where
  | null : Json
  | bool (b : Bool) : Json
  | int (n : Int) : Json
  | str (s : String) : Json
  | arr (xs : List Json) : Json
  | obj (kvs : List (String × Json)) : Json

/-- Model of `serde_json::Value::get(key)`: field lookup on an object,
`None` on every other shape. -/
def Json.get : Json → String → Option Json
  | .obj kvs, k => kvs.lookup k
  | _, _ => none

/-- Model of indexing `value[key]` (`Index for Value`): the field when the
value is an object that has it, `Null` otherwise. -/
def Json.idx (j : Json) (k : String) : Json :=
  (j.get k).getD Json.null

/-- Model of `Value::as_str`. -/
def Json.asStr : Json → Option String
  | .str s => some s
  | _ => none

/-- Model of `Value::as_bool`. -/
def Json.asBool : Json → Option Bool
  | .bool b => some b
  | _ => none

/-- Model of `Value::as_i64`: an integer in the `i64` range. -/
def Json.asI64 : Json → Option Int
  | .int n => if -(2 ^ 63) ≤ n ∧ n < 2 ^ 63 then some n else none
  | _ => none

/-- Model of `Value::as_u64`: a non-negative integer below `2^64`,
returned as a natural number. -/
def Json.asU64 : Json → Option Nat
  | .int n => if 0 ≤ n ∧ n < 2 ^ 64 then some n.toNat else none
  | _ => none

/-- Model of `Value::as_array`. -/
def Json.asArr : Json → Option (List Json)
  | .arr xs => some xs
  | _ => none

/-- The `Signal` record from `src/signals.rs`: id, wire-level type tag,
payload, timestamp. -/
structure Signal where
  id : String
  r_type : String
  payload : Json
  timestamp : String

/-- The derived `Execution` record from `src/state.rs`. -/
structure Execution where
  command : String
  args : List String
  cwd : String
  exit_code : Option Int
  success : Bool
  duration_ms : Option Nat
  started_at : String
  ended_at : Option String
  start_id : String
deriving DecidableEq

/-- The derived `CommandStats` record from `src/state.rs`. -/
structure CommandStats where
  command : String
  total_runs : Nat
  successes : Nat
  failures : Nat
  avg_duration_ms : Option Nat
  last_run : String
deriving DecidableEq

/-- The `FluxState` record from `src/state.rs`. -/
structure FluxState where
  project_path : Option String
  version : Option String
  initialized_at : Option String
  executions : List Execution
  signal_count : Nat

/-- Start-type tags: the `"exec_start" | "install_start" | "run_start"`
match arm of `from_signals`. -/
def isStartType (t : String) : Bool :=
  t == "exec_start" || t == "install_start" || t == "run_start"

/-- End-type tags: the `"exec_end" | "install_end" | "run_end"` match arm
of `from_signals`. -/
def isEndType (t : String) : Bool :=
  t == "exec_end" || t == "install_end" || t == "run_end"

/-- Extraction of `command` from a start payload:
`payload.get("command").and_then(as_str).unwrap_or("unknown")`. -/
def commandOf (p : Json) : String :=
  ((p.get "command").bind Json.asStr).getD "unknown"

/-- Extraction of `args` from a start payload: the array's string
elements, or `[]` when the field is missing or not an array. -/
def argsOf (p : Json) : List String :=
  (((p.get "args").bind Json.asArr).map (fun xs => xs.filterMap Json.asStr)).getD []

/-- Extraction of `cwd` from a start payload, defaulting to `""`. -/
def cwdOf (p : Json) : String :=
  ((p.get "cwd").bind Json.asStr).getD ""

/-- Extraction of `ref_id` from an end payload, defaulting to `""`. -/
def refIdOf (p : Json) : String :=
  ((p.get "ref_id").bind Json.asStr).getD ""

/-- Extraction of `exit_code` from an end payload (`as_i64`, no default). -/
def exitCodeOf (p : Json) : Option Int :=
  (p.get "exit_code").bind Json.asI64

/-- Extraction of `success` from an end payload, defaulting to `false`. -/
def successOf (p : Json) : Bool :=
  ((p.get "success").bind Json.asBool).getD false

/-- Extraction of `duration_ms` from an end payload (`as_u64`, no default). -/
def durationOf (p : Json) : Option Nat :=
  (p.get "duration_ms").bind Json.asU64

/-- The `pending_starts` map of `from_signals`. A Rust `HashMap<String, &Signal>`
is modelled as an association list with unique keys; its unordered iteration
is accounted for separately (see `FluxState.from_signalsWith`). -/
abbrev Pending := List (String × Signal)

/-- Key lookup in the pending map (`HashMap::get`-like). -/
def lookupKey : Pending → String → Option Signal
  | [], _ => none
  | kv :: rest, k => if kv.1 = k then some kv.2 else lookupKey rest k

/-- Key removal from the pending map (the destructive part of
`HashMap::remove` / the overwrite part of `HashMap::insert`). -/
def eraseKey (p : Pending) (k : String) : Pending :=
  p.filter (fun kv => !(kv.1 == k))

/-- The `Execution` built when an end signal finds its pending start:
start fields (`command`, `args`, `cwd`, `started_at`, `start_id`) from the
start signal, end fields from the end signal. -/
def matchedExec (st e : Signal) : Execution :=
  { command := commandOf st.payload
    args := argsOf st.payload
    cwd := cwdOf st.payload
    exit_code := exitCodeOf e.payload
    success := successOf e.payload
    duration_ms := durationOf e.payload
    started_at := st.timestamp
    ended_at := some e.timestamp
    start_id := st.id }

/-- The placeholder `Execution` built when an end signal matches no
pending start (`"unknown"`, `vec![]`, empty strings). -/
def unmatchedExec (e : Signal) : Execution :=
  { command := "unknown"
    args := []
    cwd := ""
    exit_code := exitCodeOf e.payload
    success := successOf e.payload
    duration_ms := durationOf e.payload
    started_at := ""
    ended_at := some e.timestamp
    start_id := "" }

/-- The orphan `Execution` built after the forward pass for a pending
start that never saw its end. -/
def orphanExec (st : Signal) : Execution :=
  { command := commandOf st.payload
    args := argsOf st.payload
    cwd := cwdOf st.payload
    exit_code := none
    success := false
    duration_ms := none
    started_at := st.timestamp
    ended_at := none
    start_id := st.id }

/-- One iteration of the `for signal in signals` loop of
`FluxState::from_signals`, acting on the state under construction and the
pending-starts map. -/
def step (acc : FluxState × Pending) (signal : Signal) : FluxState × Pending :=
  let state := acc.1
  let pending := acc.2
  if signal.r_type == "init" then
    ({ state with
        initialized_at := some signal.timestamp
        project_path := (signal.payload.get "path").bind Json.asStr
        version := (signal.payload.get "version").bind Json.asStr },
     pending)
  else if isStartType signal.r_type then
    (state, eraseKey pending signal.id ++ [(signal.id, signal)])
  else if isEndType signal.r_type then
    match lookupKey pending (refIdOf signal.payload) with
    | some st =>
        ({ state with executions := state.executions ++ [matchedExec st signal] },
         eraseKey pending (refIdOf signal.payload))
    | none =>
        ({ state with executions := state.executions ++ [unmatchedExec signal] },
         eraseKey pending (refIdOf signal.payload))
  else
    (state, pending)

/-- Replay, parametrised by the iteration order of the final
`pending_starts` map: `reorder` stands for the unspecified order in which
Rust's `HashMap` yields its entries during orphan materialisation. A run of
the Rust code corresponds to some permutation-producing `reorder`. -/
def FluxState.from_signalsWith (reorder : Pending → Pending) (signals : List Signal) : FluxState :=
  let start : FluxState :=
    { project_path := none, version := none, initialized_at := none
      executions := [], signal_count := signals.length }
  let result := signals.foldl step (start, ([] : Pending))
  { result.1 with
      executions := result.1.executions ++ (reorder result.2).map (fun kv => orphanExec kv.2) }

/-- Replay with the canonical (insertion-order) orphan iteration. -/
def FluxState.from_signals (signals : List Signal) : FluxState :=
  FluxState.from_signalsWith (fun l => l) signals

/-! Stats aggregation (`FluxState::command_stats`). -/

/-- Wrap-around bound of a `u64` sum. -/
def u64Mod : Nat := 2 ^ 64

/-- One iteration of the grouping loop of `command_stats`:
`stats_map.entry(exec.command).or_default().push(exec)`, with groups held
in first-occurrence order (Rust's `HashMap` holds them unordered; the
per-group content is order-independent, see `commandStats`). -/
def insertGroup (acc : List (String × List Execution)) (e : Execution) :
    List (String × List Execution) :=
  if acc.any (fun kv => kv.1 == e.command) then
    acc.map (fun kv => if kv.1 == e.command then (kv.1, kv.2 ++ [e]) else kv)
  else
    acc ++ [(e.command, [e])]

/-- The `stats_map` grouping of `command_stats`. -/
def groupByCommand (execs : List Execution) : List (String × List Execution) :=
  execs.foldl insertGroup []

/-- Lexicographic comparison of character lists by code point — the order
Rust's byte-wise `Ord` on `String` induces (UTF-8 preserves code-point
order). Defined directly so that it evaluates inside the kernel. -/
def charsLe : List Char → List Char → Bool
  | [], _ => true
  | _ :: _, [] => false
  | c :: cs, d :: ds =>
    if c.toNat < d.toNat then true
    else if d.toNat < c.toNat then false
    else charsLe cs ds

/-- Lexicographic string comparison (Rust `String` ordering). -/
def strLe (a b : String) : Bool := charsLe a.data b.data

/-- The larger of two strings under lexicographic comparison (ties keep
the right argument, as Rust's `max_by_key` keeps the last maximum). -/
def strMax (a b : String) : String := if strLe a b then b else a

/-- The per-group body of `command_stats`: counts, integer-mean duration
over executions that carry one (a `u64` sum, hence reduced mod `2^64`),
and the maximal `started_at`. -/
def statsOfGroup (kv : String × List Execution) : CommandStats :=
  let execs := kv.2
  let total_runs := execs.length
  let successes := (execs.filter (fun e => e.success)).length
  let durations := execs.filterMap (fun e => e.duration_ms)
  { command := kv.1
    total_runs := total_runs
    successes := successes
    failures := total_runs - successes
    avg_duration_ms :=
      if durations.isEmpty then none
      else some ((durations.foldl (fun a b => (a + b) % u64Mod) 0) / (durations.length % u64Mod))
    last_run := (execs.map (fun e => e.started_at)).foldl strMax "" }

/-- `FluxState::command_stats` applied to an execution list: group by the
literal command string, compute per-group stats, sort by `last_run`
descending (Rust's stable `sort_by`). -/
def commandStats (execs : List Execution) : List CommandStats :=
  List.insertionSort (fun a b => strLe b.last_run a.last_run = true)
    ((groupByCommand execs).map statsOfGroup)

/-! Undo-candidate selection (`commands::undo` in `src/commands/mod.rs`). -/

/-- The `already_undone` set: `target_id` strings of all `undo` signals. -/
def consumedUndoSet (signals : List Signal) : List String :=
  (signals.filter (fun s => s.r_type == "undo")).filterMap
    (fun s => Json.asStr (Json.idx s.payload "target_id"))

/-- The predicate of the reverse scan in `undo`: an `add` or `remove`
signal whose own id has not been consumed by a prior undo. -/
def isUndoable (signals : List Signal) (s : Signal) : Bool :=
  (s.r_type == "add" || s.r_type == "remove")
    && !((consumedUndoSet signals).contains s.id)

/-- The next undo candidate: `signals.iter().rev().find(...)` in `undo`;
`none` corresponds to the "no undoable operation" failure. -/
def undoCandidate (signals : List Signal) : Option Signal :=
  signals.reverse.find? (isUndoable signals)

/-! The signal store (`FluxProject` in `src/signals.rs`), over an abstract
filesystem: a set of directory paths plus files mapped to their lines. -/

/-- Abstract filesystem state: existing directories, and files with their
line contents. -/
structure FS where
  dirs : List String
  files : List (String × List String)
deriving DecidableEq

/-- Model of `Path::exists`: true when the path is a directory or a file. -/
def pathExists (fs : FS) (p : String) : Bool :=
  fs.dirs.contains p || (fs.files.map Prod.fst).contains p

/-- The error taxonomy of the store. -/
inductive ArcError where
  | alreadyInitialized : ArcError
  | notInitialized : ArcError
  | ioFailure : ArcError
  | parseFailure (line : Nat) : ArcError
deriving DecidableEq

/-- The `FluxProject` handle: root, `.flux` directory, `signals.jsonl` path. -/
structure FluxProject where
  root : String
  flux_dir : String
  signal_file : String
deriving DecidableEq

/-- The `.flux` directory of a root. -/
def fluxDirOf (root : String) : String := root ++ "/.flux"

/-- The `signals.jsonl` path of a root. -/
def signalFileOf (root : String) : String := fluxDirOf root ++ "/signals.jsonl"

/-- `FluxProject::init`: bail with `AlreadyInitialized` when
`signals.jsonl` exists, otherwise `create_dir_all(flux_dir)` and return
the handle. Note that only the directory is created. -/
def FluxProject.init (fs : FS) (project_root : String) : Except ArcError (FS × FluxProject) :=
  let flux_dir := fluxDirOf project_root
  let signal_file := signalFileOf project_root
  if pathExists fs signal_file then
    .error .alreadyInitialized
  else
    .ok ({ fs with dirs := flux_dir :: project_root :: fs.dirs },
         { root := project_root, flux_dir := flux_dir, signal_file := signal_file })

/-- `FluxProject::open`: bail with `NotInitialized` when the `.flux`
directory does not exist, otherwise return the handle. -/
def FluxProject.open' (fs : FS) (project_root : String) : Except ArcError FluxProject :=
  let flux_dir := fluxDirOf project_root
  if !(pathExists fs flux_dir) then
    .error .notInitialized
  else
    .ok { root := project_root, flux_dir := flux_dir, signal_file := signalFileOf project_root }

/-- Line-by-line parsing of the log: the first malformed line (as judged
by the abstract line decoder `decodeLine`) fails the whole read with its
1-based line number. -/
def parseAllLines (decodeLine : String → Option Signal) : Nat → List String →
    Except ArcError (List Signal)
  | _, [] => .ok []
  | i, l :: rest =>
    match decodeLine l with
    | none => .error (.parseFailure i)
    | some s => (parseAllLines decodeLine (i + 1) rest).map (fun tl => s :: tl)

/-- `FluxProject::read_signals`: an absent log file yields the empty list;
an existing one is read line by line. `decodeLine` abstracts
`serde_json::from_str::<Signal>`. -/
def FluxProject.read_signals (decodeLine : String → Option Signal) (fs : FS)
    (proj : FluxProject) : Except ArcError (List Signal) :=
  if !(pathExists fs proj.signal_file) then
    .ok []
  else
    match fs.files.lookup proj.signal_file with
    | some lines => parseAllLines decodeLine 1 lines
    | none => .error .ioFailure

/-! Decomposition of the replay loop: the pending-map component and the
emitted-execution component of `step`, studied separately. -/

/-- The effect of one loop iteration on the pending-starts map alone. -/
def pstep (p : Pending) (s : Signal) : Pending :=
  if s.r_type == "init" then p
  else if isStartType s.r_type then eraseKey p s.id ++ [(s.id, s)]
  else if isEndType s.r_type then eraseKey p (refIdOf s.payload)
  else p

/-- The executions appended by one loop iteration. -/
def emit1 (p : Pending) (s : Signal) : List Execution :=
  if s.r_type == "init" then []
  else if isStartType s.r_type then []
  else if isEndType s.r_type then
    match lookupKey p (refIdOf s.payload) with
    | some st => [matchedExec st s]
    | none => [unmatchedExec s]
  else []

/-- The pending map after a list of signals. -/
def pendAfter (signals : List Signal) (p : Pending) : Pending :=
  signals.foldl pstep p

/-- The executions emitted by the forward pass over a list of signals,
starting from pending map `p`. -/
def emitted : Pending → List Signal → List Execution
  | _, [] => []
  | p, s :: rest => emit1 p s ++ emitted (pstep p s) rest

theorem step_snd (st : FluxState) (p : Pending) (s : Signal) :
    (step (st, p) s).2 = pstep p s := by
  unfold step pstep
  by_cases h1 : (s.r_type == "init") = true
  · simp [h1]
  · by_cases h2 : isStartType s.r_type = true
    · simp [h1, h2]
    · by_cases h3 : isEndType s.r_type = true
      · simp only [h1, h2, h3]
        cases hm : lookupKey p (refIdOf s.payload) <;> simp [hm]
      · simp [h1, h2, h3]

theorem step_fst_executions (st : FluxState) (p : Pending) (s : Signal) :
    (step (st, p) s).1.executions = st.executions ++ emit1 p s := by
  unfold step emit1
  by_cases h1 : (s.r_type == "init") = true
  · simp [h1]
  · by_cases h2 : isStartType s.r_type = true
    · simp [h1, h2]
    · by_cases h3 : isEndType s.r_type = true
      · simp only [h1, h2, h3]
        cases hm : lookupKey p (refIdOf s.payload) <;> simp [hm]
      · simp [h1, h2, h3]

theorem foldl_step_snd (l : List Signal) :
    ∀ (st : FluxState) (p : Pending), (l.foldl step (st, p)).2 = pendAfter l p := by
  induction l with
  | nil => intro st p; rfl
  | cons s rest ih =>
    intro st p
    have h1 : (s :: rest).foldl step (st, p) = rest.foldl step (step (st, p) s) := rfl
    rw [h1]
    have h2 : (rest.foldl step ((step (st, p) s).1, (step (st, p) s).2)).2
        = pendAfter rest (step (st, p) s).2 := ih _ _
    have h3 : ((step (st, p) s).1, (step (st, p) s).2) = step (st, p) s := rfl
    rw [h3] at h2
    rw [h2, step_snd]
    rfl

theorem foldl_step_fst_executions (l : List Signal) :
    ∀ (st : FluxState) (p : Pending),
      (l.foldl step (st, p)).1.executions = st.executions ++ emitted p l := by
  induction l with
  | nil => intro st p; simp [emitted]
  | cons s rest ih =>
    intro st p
    have h1 : (s :: rest).foldl step (st, p) = rest.foldl step (step (st, p) s) := rfl
    rw [h1]
    have h2 : (rest.foldl step ((step (st, p) s).1, (step (st, p) s).2)).1.executions
        = (step (st, p) s).1.executions ++ emitted (step (st, p) s).2 rest := ih _ _
    have h3 : ((step (st, p) s).1, (step (st, p) s).2) = step (st, p) s := rfl
    rw [h3] at h2
    rw [h2, step_fst_executions, step_snd, emitted, List.append_assoc]

theorem from_signalsWith_executions (reorder : Pending → Pending) (signals : List Signal) :
    (FluxState.from_signalsWith reorder signals).executions
      = emitted [] signals ++ (reorder (pendAfter signals [])).map (fun kv => orphanExec kv.2) := by
  simp only [FluxState.from_signalsWith]
  rw [foldl_step_fst_executions, foldl_step_snd]
  rfl

theorem pendAfter_append (l₁ l₂ : List Signal) (p : Pending) :
    pendAfter (l₁ ++ l₂) p = pendAfter l₂ (pendAfter l₁ p) := by
  simp [pendAfter, List.foldl_append]

theorem emitted_append (l₁ : List Signal) :
    ∀ (l₂ : List Signal) (p : Pending),
      emitted p (l₁ ++ l₂) = emitted p l₁ ++ emitted (pendAfter l₁ p) l₂ := by
  induction l₁ with
  | nil => intro l₂ p; rfl
  | cons s rest ih =>
    intro l₂ p
    show emit1 p s ++ emitted (pstep p s) (rest ++ l₂) = _
    rw [ih l₂ (pstep p s)]
    simp [emitted, pendAfter]

/-! Disjointness of the type-tag classes. -/

theorem start_ne_init {t : String} (h : isStartType t = true) : (t == "init") = false := by
  simp only [isStartType, Bool.or_eq_true, beq_iff_eq] at h
  rcases h with (h | h) | h <;> subst h <;> rfl

theorem end_ne_init {t : String} (h : isEndType t = true) : (t == "init") = false := by
  simp only [isEndType, Bool.or_eq_true, beq_iff_eq] at h
  rcases h with (h | h) | h <;> subst h <;> rfl

theorem end_not_start {t : String} (h : isEndType t = true) : isStartType t = false := by
  simp only [isEndType, Bool.or_eq_true, beq_iff_eq] at h
  rcases h with (h | h) | h <;> subst h <;> rfl

theorem init_not_start {t : String} (h : (t == "init") = true) : isStartType t = false := by
  simp only [beq_iff_eq] at h; subst h; rfl

theorem init_not_end {t : String} (h : (t == "init") = true) : isEndType t = false := by
  simp only [beq_iff_eq] at h; subst h; rfl

theorem start_not_end {t : String} (h : isStartType t = true) : isEndType t = false := by
  simp only [isStartType, Bool.or_eq_true, beq_iff_eq] at h
  rcases h with (h | h) | h <;> subst h <;> rfl

/-! Case lemmas for `emit1` and `pstep`. -/

theorem emit1_init {s : Signal} (h : (s.r_type == "init") = true) (p : Pending) :
    emit1 p s = [] := by simp [emit1, h]

theorem emit1_start {s : Signal} (h : isStartType s.r_type = true) (p : Pending) :
    emit1 p s = [] := by simp [emit1, start_ne_init h, h]

theorem emit1_end_matched {s st : Signal} {p : Pending} (h : isEndType s.r_type = true)
    (hm : lookupKey p (refIdOf s.payload) = some st) : emit1 p s = [matchedExec st s] := by
  simp [emit1, end_ne_init h, end_not_start h, h, hm]

theorem emit1_end_unmatched {s : Signal} {p : Pending} (h : isEndType s.r_type = true)
    (hm : lookupKey p (refIdOf s.payload) = none) : emit1 p s = [unmatchedExec s] := by
  simp [emit1, end_ne_init h, end_not_start h, h, hm]

theorem emit1_other {s : Signal} (h1 : (s.r_type == "init") = false)
    (h2 : isStartType s.r_type = false) (h3 : isEndType s.r_type = false) (p : Pending) :
    emit1 p s = [] := by simp [emit1, h1, h2, h3]

theorem pstep_init {s : Signal} (h : (s.r_type == "init") = true) (p : Pending) :
    pstep p s = p := by simp [pstep, h]

theorem pstep_start {s : Signal} (h : isStartType s.r_type = true) (p : Pending) :
    pstep p s = eraseKey p s.id ++ [(s.id, s)] := by
  simp [pstep, start_ne_init h, h]

theorem pstep_end {s : Signal} (h : isEndType s.r_type = true) (p : Pending) :
    pstep p s = eraseKey p (refIdOf s.payload) := by
  simp [pstep, end_ne_init h, end_not_start h, h]

theorem pstep_other {s : Signal} (h1 : (s.r_type == "init") = false)
    (h2 : isStartType s.r_type = false) (h3 : isEndType s.r_type = false) (p : Pending) :
    pstep p s = p := by simp [pstep, h1, h2, h3]

/-! Lookup and erase on the pending map. -/

theorem lookupKey_eraseKey_self (p : Pending) (k : String) :
    lookupKey (eraseKey p k) k = none := by
  induction p with
  | nil => rfl
  | cons kv rest ih =>
    by_cases hk : kv.1 = k
    · simpa [eraseKey, List.filter_cons, hk] using ih
    · simpa [eraseKey, List.filter_cons, hk, lookupKey] using ih

theorem lookupKey_eraseKey_ne {k' k : String} (h : k' ≠ k) (p : Pending) :
    lookupKey (eraseKey p k) k' = lookupKey p k' := by
  induction p with
  | nil => rfl
  | cons kv rest ih =>
    by_cases hk : kv.1 = k
    · have hk' : kv.1 ≠ k' := by rw [hk]; exact fun hc => h hc.symm
      have hkk : ¬(k = k') := fun hc => h hc.symm
      simpa [eraseKey, List.filter_cons, hk, lookupKey, hk', hkk] using ih
    · by_cases hk2 : kv.1 = k'
      · simp [eraseKey, List.filter_cons, hk, lookupKey, hk2, h]
      · simpa [eraseKey, List.filter_cons, hk, lookupKey, hk2] using ih

theorem lookupKey_append_of_none {p₁ : Pending} {k : String}
    (h : lookupKey p₁ k = none) (p₂ : Pending) :
    lookupKey (p₁ ++ p₂) k = lookupKey p₂ k := by
  induction p₁ with
  | nil => rfl
  | cons kv rest ih =>
    by_cases hk : kv.1 = k
    · simp [lookupKey, hk] at h
    · simp only [lookupKey, hk, if_false, List.cons_append, if_neg hk] at h ⊢
      exact ih h

theorem lookupKey_append_of_some {p₁ : Pending} {k : String} {v : Signal}
    (h : lookupKey p₁ k = some v) (p₂ : Pending) :
    lookupKey (p₁ ++ p₂) k = some v := by
  induction p₁ with
  | nil => simp [lookupKey] at h
  | cons kv rest ih =>
    by_cases hk : kv.1 = k
    · simp only [lookupKey, if_pos hk] at h
      simp [lookupKey, hk, h]
    · simp only [lookupKey, if_neg hk] at h ⊢
      exact ih h

theorem lookupKey_insert_self (p : Pending) (k : String) (v : Signal) :
    lookupKey (eraseKey p k ++ [(k, v)]) k = some v := by
  rw [lookupKey_append_of_none (lookupKey_eraseKey_self p k)]
  simp [lookupKey]

theorem lookupKey_insert_ne {k' k : String} (h : k' ≠ k) (p : Pending) (v : Signal) :
    lookupKey (eraseKey p k ++ [(k, v)]) k' = lookupKey p k' := by
  cases hl : lookupKey (eraseKey p k) k' with
  | none =>
    rw [lookupKey_append_of_none hl]
    rw [lookupKey_eraseKey_ne h] at hl
    have hkk : ¬(k = k') := fun hc => h hc.symm
    simp [lookupKey, hkk, hl]
  | some w =>
    rw [lookupKey_append_of_some hl]
    rw [lookupKey_eraseKey_ne h] at hl
    exact hl.symm

theorem lookupKey_pstep_untouched {s : Signal} {k : String} (p : Pending)
    (h1 : isStartType s.r_type = true → s.id ≠ k)
    (h2 : isEndType s.r_type = true → refIdOf s.payload ≠ k) :
    lookupKey (pstep p s) k = lookupKey p k := by
  by_cases c1 : (s.r_type == "init") = true
  · rw [pstep_init c1]
  · by_cases c2 : isStartType s.r_type = true
    · rw [pstep_start c2]
      exact lookupKey_insert_ne (fun hc => h1 c2 hc.symm) p s
    · by_cases c3 : isEndType s.r_type = true
      · rw [pstep_end c3]
        exact lookupKey_eraseKey_ne (fun hc => h2 c3 hc.symm) p
      · rw [pstep_other (Bool.not_eq_true _ ▸ c1) (Bool.not_eq_true _ ▸ c2) (Bool.not_eq_true _ ▸ c3)]

theorem lookupKey_pstep_start {s : Signal} (h : isStartType s.r_type = true) (p : Pending) :
    lookupKey (pstep p s) s.id = some s := by
  rw [pstep_start h]; exact lookupKey_insert_self p s.id s

theorem lookupKey_pstep_end {s : Signal} (h : isEndType s.r_type = true) (p : Pending) :
    lookupKey (pstep p s) (refIdOf s.payload) = none := by
  rw [pstep_end h]; exact lookupKey_eraseKey_self p _

/-! Invariants of the pending map: every entry is keyed by its signal's
own id, and keys are unique. Both hold by construction of `pstep`. -/

/-- Every pending entry stores a signal under that signal's own id. -/
def goodPending (p : Pending) : Prop := ∀ kv ∈ p, kv.2.id = kv.1

/-- Keys of the pending map are pairwise distinct. -/
def keysNodup (p : Pending) : Prop := (p.map Prod.fst).Nodup

theorem goodPending_nil : goodPending [] := by intro kv h; cases h

theorem keysNodup_nil : keysNodup [] := List.nodup_nil

theorem goodPending_eraseKey {p : Pending} (h : goodPending p) (k : String) :
    goodPending (eraseKey p k) :=
  fun kv hm => h kv (List.mem_of_mem_filter hm)

theorem goodPending_pstep {p : Pending} (h : goodPending p) (s : Signal) :
    goodPending (pstep p s) := by
  by_cases c1 : (s.r_type == "init") = true
  · rw [pstep_init c1]; exact h
  · by_cases c2 : isStartType s.r_type = true
    · rw [pstep_start c2]
      intro kv hm
      rcases List.mem_append.mp hm with hm | hm
      · exact goodPending_eraseKey h s.id kv hm
      · rcases List.mem_singleton.mp hm with rfl; rfl
    · by_cases c3 : isEndType s.r_type = true
      · rw [pstep_end c3]; exact goodPending_eraseKey h _
      · rw [pstep_other (Bool.not_eq_true _ ▸ c1) (Bool.not_eq_true _ ▸ c2)
            (Bool.not_eq_true _ ▸ c3)]
        exact h

theorem keys_eraseKey_not_mem (p : Pending) (k : String) :
    k ∉ (eraseKey p k).map Prod.fst := by
  intro hmem
  obtain ⟨kv, hkv, hfst⟩ := List.mem_map.mp hmem
  have := (List.mem_filter.mp hkv).2
  simp only [Bool.not_eq_true', beq_eq_false_iff_ne, ne_eq] at this
  exact this hfst

theorem keysNodup_eraseKey {p : Pending} (h : keysNodup p) (k : String) :
    keysNodup (eraseKey p k) :=
  List.Nodup.sublist (List.Sublist.map Prod.fst (List.filter_sublist p)) h

theorem keysNodup_pstep {p : Pending} (h : keysNodup p) (s : Signal) :
    keysNodup (pstep p s) := by
  by_cases c1 : (s.r_type == "init") = true
  · rw [pstep_init c1]; exact h
  · by_cases c2 : isStartType s.r_type = true
    · rw [pstep_start c2]
      show ((eraseKey p s.id ++ [(s.id, s)]).map Prod.fst).Nodup
      rw [List.map_append]
      refine List.nodup_append.mpr ⟨keysNodup_eraseKey h s.id, List.nodup_singleton _, ?_⟩
      intro a ha hb
      rcases List.mem_singleton.mp hb with rfl
      exact keys_eraseKey_not_mem p s.id ha
    · by_cases c3 : isEndType s.r_type = true
      · rw [pstep_end c3]; exact keysNodup_eraseKey h _
      · rw [pstep_other (Bool.not_eq_true _ ▸ c1) (Bool.not_eq_true _ ▸ c2)
            (Bool.not_eq_true _ ▸ c3)]
        exact h

theorem lookupKey_mem : ∀ {p : Pending} {k : String} {v : Signal},
    lookupKey p k = some v → (k, v) ∈ p := by
  intro p
  induction p with
  | nil => intro k v h; cases h
  | cons kv rest ih =>
    intro k v h
    by_cases hk : kv.1 = k
    · simp only [lookupKey, if_pos hk] at h
      have : (k, v) = kv := by
        cases hk; cases h; rfl
      rw [this]; exact List.mem_cons_self kv rest
    · simp only [lookupKey, if_neg hk] at h
      exact List.mem_cons_of_mem kv (ih h)

theorem goodPending_lookup_id {p : Pending} {k : String} {v : Signal}
    (hg : goodPending p) (hl : lookupKey p k = some v) : v.id = k :=
  hg (k, v) (lookupKey_mem hl)

theorem lookupKey_eq_none_iff (p : Pending) (k : String) :
    lookupKey p k = none ↔ ∀ kv ∈ p, kv.1 ≠ k := by
  induction p with
  | nil => simp [lookupKey]
  | cons kv rest ih =>
    by_cases hk : kv.1 = k
    · simp [lookupKey, hk]
    · simp [lookupKey, hk, ih]

/-! Tracking a fixed id `A` through the forward pass: when `A` is not
pending and no start in the remaining signals carries it, no emitted
execution has `start_id = A`; when `A` is pending with signal `s₀` and no
remaining signal touches it, it stays pending and nothing emitted has
`start_id = A`. -/

theorem emitted_filter_nil (A : String) (hA : A ≠ "") :
    ∀ (l : List Signal) (p : Pending), goodPending p →
      lookupKey p A = none →
      (∀ x ∈ l, isStartType x.r_type = true → x.id ≠ A) →
      List.filter (fun ex => ex.start_id == A) (emitted p l) = []
        ∧ lookupKey (pendAfter l p) A = none := by
  intro l
  induction l with
  | nil =>
    intro p _ hl _
    exact ⟨rfl, hl⟩
  | cons s rest ih =>
    intro p hg hl hst
    have hgood : goodPending (pstep p s) := goodPending_pstep hg s
    have hrest : ∀ x ∈ rest, isStartType x.r_type = true → x.id ≠ A :=
      fun x hx => hst x (List.mem_cons_of_mem s hx)
    have hA' : ¬("" = A) := fun hc => hA hc.symm
    have hmain : List.filter (fun ex => ex.start_id == A) (emit1 p s) = []
        ∧ lookupKey (pstep p s) A = none := by
      by_cases c1 : (s.r_type == "init") = true
      · rw [emit1_init c1, pstep_init c1]; exact ⟨rfl, hl⟩
      · by_cases c2 : isStartType s.r_type = true
        · rw [emit1_start c2, pstep_start c2]
          refine ⟨rfl, ?_⟩
          rw [lookupKey_insert_ne (fun hc => hst s (List.mem_cons_self s rest) c2 hc.symm) p s]
          exact hl
        · by_cases c3 : isEndType s.r_type = true
          · refine ⟨?_, ?_⟩
            · cases hm : lookupKey p (refIdOf s.payload) with
              | none =>
                rw [emit1_end_unmatched c3 hm]
                simp [unmatchedExec, List.filter_cons, hA']
              | some st =>
                rw [emit1_end_matched c3 hm]
                have hrne : refIdOf s.payload ≠ A := by
                  intro hc; rw [hc, hl] at hm; cases hm
                have hid : st.id = refIdOf s.payload := goodPending_lookup_id hg hm
                have hne : ¬(st.id = A) := fun hc => hrne (hid.symm.trans hc)
                simp [matchedExec, List.filter_cons, hne]
            · rw [pstep_end c3]
              by_cases hr : refIdOf s.payload = A
              · rw [hr]; exact lookupKey_eraseKey_self p A
              · rw [lookupKey_eraseKey_ne (fun hc => hr hc.symm) p]; exact hl
          · rw [emit1_other (Bool.not_eq_true _ ▸ c1) (Bool.not_eq_true _ ▸ c2)
                  (Bool.not_eq_true _ ▸ c3),
                pstep_other (Bool.not_eq_true _ ▸ c1) (Bool.not_eq_true _ ▸ c2)
                  (Bool.not_eq_true _ ▸ c3)]
            exact ⟨rfl, hl⟩
    obtain ⟨ihf, ihl⟩ := ih (pstep p s) hgood hmain.2 hrest
    constructor
    · show List.filter (fun ex => ex.start_id == A) (emit1 p s ++ emitted (pstep p s) rest) = []
      rw [List.filter_append, hmain.1, ihf]; rfl
    · exact ihl

theorem emitted_filter_keep (A : String) (hA : A ≠ "") (s₀ : Signal) :
    ∀ (l : List Signal) (p : Pending), goodPending p →
      lookupKey p A = some s₀ →
      (∀ x ∈ l, isStartType x.r_type = true → x.id ≠ A) →
      (∀ x ∈ l, isEndType x.r_type = true → refIdOf x.payload ≠ A) →
      List.filter (fun ex => ex.start_id == A) (emitted p l) = []
        ∧ lookupKey (pendAfter l p) A = some s₀ := by
  intro l
  induction l with
  | nil =>
    intro p _ hl _ _
    exact ⟨rfl, hl⟩
  | cons s rest ih =>
    intro p hg hl hst hend
    have hgood : goodPending (pstep p s) := goodPending_pstep hg s
    have hrest : ∀ x ∈ rest, isStartType x.r_type = true → x.id ≠ A :=
      fun x hx => hst x (List.mem_cons_of_mem s hx)
    have hrend : ∀ x ∈ rest, isEndType x.r_type = true → refIdOf x.payload ≠ A :=
      fun x hx => hend x (List.mem_cons_of_mem s hx)
    have hA' : ¬("" = A) := fun hc => hA hc.symm
    have hmain : List.filter (fun ex => ex.start_id == A) (emit1 p s) = []
        ∧ lookupKey (pstep p s) A = some s₀ := by
      by_cases c1 : (s.r_type == "init") = true
      · rw [emit1_init c1, pstep_init c1]; exact ⟨rfl, hl⟩
      · by_cases c2 : isStartType s.r_type = true
        · rw [emit1_start c2, pstep_start c2]
          refine ⟨rfl, ?_⟩
          rw [lookupKey_insert_ne (fun hc => hst s (List.mem_cons_self s rest) c2 hc.symm) p s]
          exact hl
        · by_cases c3 : isEndType s.r_type = true
          · have hrne : refIdOf s.payload ≠ A := hend s (List.mem_cons_self s rest) c3
            refine ⟨?_, ?_⟩
            · cases hm : lookupKey p (refIdOf s.payload) with
              | none =>
                rw [emit1_end_unmatched c3 hm]
                simp [unmatchedExec, List.filter_cons, hA']
              | some st =>
                rw [emit1_end_matched c3 hm]
                have hid : st.id = refIdOf s.payload := goodPending_lookup_id hg hm
                have hne : ¬(st.id = A) := fun hc => hrne (hid.symm.trans hc)
                simp [matchedExec, List.filter_cons, hne]
            · rw [pstep_end c3]
              rw [lookupKey_eraseKey_ne (fun hc => hrne hc.symm) p]
              exact hl
          · rw [emit1_other (Bool.not_eq_true _ ▸ c1) (Bool.not_eq_true _ ▸ c2)
                  (Bool.not_eq_true _ ▸ c3),
                pstep_other (Bool.not_eq_true _ ▸ c1) (Bool.not_eq_true _ ▸ c2)
                  (Bool.not_eq_true _ ▸ c3)]
            exact ⟨rfl, hl⟩
    obtain ⟨ihf, ihl⟩ := ih (pstep p s) hgood hmain.2 hrest hrend
    constructor
    · show List.filter (fun ex => ex.start_id == A) (emit1 p s ++ emitted (pstep p s) rest) = []
      rw [List.filter_append, hmain.1, ihf]; rfl
    · exact ihl

/-! Orphan materialisation filtered by a fixed `start_id`. -/

theorem orphans_filter_none (A : String) :
    ∀ (p : Pending), goodPending p → lookupKey p A = none →
      List.filter (fun ex => ex.start_id == A) (p.map (fun kv => orphanExec kv.2)) = [] := by
  intro p
  induction p with
  | nil => intro _ _; rfl
  | cons kv rest ih =>
    intro hg hl
    have hk : kv.1 ≠ A := (lookupKey_eq_none_iff _ _).mp hl kv (List.mem_cons_self kv rest)
    have hid : kv.2.id = kv.1 := hg kv (List.mem_cons_self kv rest)
    have hne : ¬((orphanExec kv.2).start_id = A) := by
      simp only [orphanExec]
      rw [hid]; exact hk
    have hgr : goodPending rest := fun x hx => hg x (List.mem_cons_of_mem kv hx)
    have hlr : lookupKey rest A = none := by
      rw [lookupKey_eq_none_iff]
      exact fun x hx => (lookupKey_eq_none_iff _ _).mp hl x (List.mem_cons_of_mem kv hx)
    simpa [List.filter_cons, hne] using ih hgr hlr

theorem orphans_filter_some (A : String) (v : Signal) :
    ∀ (p : Pending), goodPending p → keysNodup p → lookupKey p A = some v →
      List.filter (fun ex => ex.start_id == A) (p.map (fun kv => orphanExec kv.2))
        = [orphanExec v] := by
  intro p
  induction p with
  | nil => intro _ _ h; cases h
  | cons kv rest ih =>
    intro hg hn hl
    have hid : kv.2.id = kv.1 := hg kv (List.mem_cons_self kv rest)
    have hgr : goodPending rest := fun x hx => hg x (List.mem_cons_of_mem kv hx)
    have hnr : keysNodup rest := (List.nodup_cons.mp hn).2
    by_cases hk : kv.1 = A
    · have hv : kv.2 = v := by
        simp only [lookupKey, if_pos hk] at hl
        exact Option.some.inj hl
      have hkeep : ((orphanExec kv.2).start_id == A) = true := by
        simp only [orphanExec]
        rw [hid, hk]; exact beq_self_eq_true A
      have hlr : lookupKey rest A = none := by
        rw [lookupKey_eq_none_iff]
        intro x hx hc
        exact (List.nodup_cons.mp hn).1 (hk ▸ hc ▸ List.mem_map_of_mem Prod.fst hx)
      simp only [List.map_cons, List.filter_cons, hkeep, if_true]
      rw [orphans_filter_none A rest hgr hlr, hv]
    · have hdrop : ¬((orphanExec kv.2).start_id = A) := by
        simp only [orphanExec]
        rw [hid]; exact hk
      have hlr : lookupKey rest A = some v := by
        simpa [lookupKey, hk] using hl
      simpa [List.filter_cons, hdrop] using ih hgr hnr hlr

theorem goodPending_pendAfter : ∀ (l : List Signal) (p : Pending),
    goodPending p → goodPending (pendAfter l p) := by
  intro l
  induction l with
  | nil => intro p h; exact h
  | cons s rest ih =>
    intro p h
    exact ih (pstep p s) (goodPending_pstep h s)

theorem keysNodup_pendAfter : ∀ (l : List Signal) (p : Pending),
    keysNodup p → keysNodup (pendAfter l p) := by
  intro l
  induction l with
  | nil => intro p h; exact h
  | cons s rest ih =>
    intro p h
    exact ih (pstep p s) (keysNodup_pstep h s)

/-- Each end-type signal emits exactly one execution; every other signal
emits none, so the forward pass emits as many executions as there are
end-type signals. -/
theorem emitted_length : ∀ (l : List Signal) (p : Pending),
    (emitted p l).length = l.countP (fun s => isEndType s.r_type) := by
  intro l
  induction l with
  | nil => intro p; rfl
  | cons s rest ih =>
    intro p
    have hcons : emitted p (s :: rest) = emit1 p s ++ emitted (pstep p s) rest := rfl
    rw [hcons, List.length_append, List.countP_cons, ih]
    have h1 : (emit1 p s).length = (if isEndType s.r_type then 1 else 0) := by
      by_cases c1 : (s.r_type == "init") = true
      · rw [emit1_init c1, init_not_end c1]; rfl
      · by_cases c2 : isStartType s.r_type = true
        · rw [emit1_start c2, start_not_end c2]; rfl
        · by_cases c3 : isEndType s.r_type = true
          · cases hm : lookupKey p (refIdOf s.payload) with
            | none => rw [emit1_end_unmatched c3 hm, c3]; rfl
            | some st => rw [emit1_end_matched c3 hm, c3]; rfl
          · have c3' : isEndType s.r_type = false := Bool.not_eq_true _ ▸ c3
            rw [emit1_other (Bool.not_eq_true _ ▸ c1) (Bool.not_eq_true _ ▸ c2) c3']
            simp [c3']
    rw [h1]
    omega

/-! Claim theorems. -/

/-- C1: in a signal sequence containing a start-type signal `s` with id
`A` (the only start carrying that id, as ids are unique) later followed by
an end-type signal `e` whose payload `ref_id` equals `A` (with no earlier
such end in between), replay emits exactly one `Execution` for that pair:
`command`, `args`, `cwd`, `started_at`, `start_id` come from the start
signal and `exit_code`, `success`, `duration_ms`, `ended_at` from the end
signal. The id `A` is consumed: no later end signal pairs with it and it
yields no orphan, so the execution carrying `start_id = A` is unique. -/
theorem C1_pairing (pre mid post : List Signal) (s e : Signal)
    (hs : isStartType s.r_type = true)
    (he : isEndType e.r_type = true)
    (href : refIdOf e.payload = s.id)
    (hid : s.id ≠ "")
    (hpre : ∀ x ∈ pre, isStartType x.r_type = true → x.id ≠ s.id)
    (hmid_start : ∀ x ∈ mid, isStartType x.r_type = true → x.id ≠ s.id)
    (hmid_end : ∀ x ∈ mid, isEndType x.r_type = true → refIdOf x.payload ≠ s.id)
    (hpost : ∀ x ∈ post, isStartType x.r_type = true → x.id ≠ s.id) :
    List.filter (fun ex => ex.start_id == s.id)
        (FluxState.from_signals (pre ++ s :: mid ++ e :: post)).executions
      = [{ command := commandOf s.payload
           args := argsOf s.payload
           cwd := cwdOf s.payload
           exit_code := exitCodeOf e.payload
           success := successOf e.payload
           duration_ms := durationOf e.payload
           started_at := s.timestamp
           ended_at := some e.timestamp
           start_id := s.id }] := by
  have hg₀ : goodPending (pendAfter pre []) := goodPending_pendAfter pre [] goodPending_nil
  have h0 := emitted_filter_nil s.id hid pre [] goodPending_nil rfl hpre
  have hg₁ : goodPending (pstep (pendAfter pre []) s) := goodPending_pstep hg₀ s
  have hl₁ : lookupKey (pstep (pendAfter pre []) s) s.id = some s :=
    lookupKey_pstep_start hs _
  have h2 := emitted_filter_keep s.id hid s mid (pstep (pendAfter pre []) s)
    hg₁ hl₁ hmid_start hmid_end
  have hg₂ : goodPending (pendAfter mid (pstep (pendAfter pre []) s)) :=
    goodPending_pendAfter mid _ hg₁
  have hm : lookupKey (pendAfter mid (pstep (pendAfter pre []) s)) (refIdOf e.payload)
      = some s := by rw [href]; exact h2.2
  have hemit_e : emit1 (pendAfter mid (pstep (pendAfter pre []) s)) e = [matchedExec s e] :=
    emit1_end_matched he hm
  have hg₃ : goodPending (pstep (pendAfter mid (pstep (pendAfter pre []) s)) e) :=
    goodPending_pstep hg₂ e
  have hl₃ : lookupKey (pstep (pendAfter mid (pstep (pendAfter pre []) s)) e) s.id = none := by
    have h := lookupKey_pstep_end he (pendAfter mid (pstep (pendAfter pre []) s))
    rwa [href] at h
  have h4 := emitted_filter_nil s.id hid post _ hg₃ hl₃ hpost
  have hg₄ : goodPending
      (pendAfter post (pstep (pendAfter mid (pstep (pendAfter pre []) s)) e)) :=
    goodPending_pendAfter post _ hg₃
  have horph := orphans_filter_none s.id _ hg₄ h4.2
  have p0eq : pendAfter (pre ++ s :: mid) ([] : Pending)
      = pendAfter mid (pstep (pendAfter pre []) s) := by
    rw [pendAfter_append pre (s :: mid) ([] : Pending)]
    rfl
  have hsig_pend : pendAfter (pre ++ s :: mid ++ e :: post) ([] : Pending)
      = pendAfter post (pstep (pendAfter mid (pstep (pendAfter pre []) s)) e) := by
    rw [pendAfter_append (pre ++ s :: mid) (e :: post) ([] : Pending), p0eq]
    rfl
  have hsig_emit : emitted [] (pre ++ s :: mid ++ e :: post)
      = (emitted [] pre
          ++ (emit1 (pendAfter pre []) s ++ emitted (pstep (pendAfter pre []) s) mid))
        ++ (emit1 (pendAfter mid (pstep (pendAfter pre []) s)) e
          ++ emitted (pstep (pendAfter mid (pstep (pendAfter pre []) s)) e) post) := by
    rw [emitted_append (pre ++ s :: mid) (e :: post) ([] : Pending),
        emitted_append pre (s :: mid) ([] : Pending), p0eq]
    rfl
  have hkeep : List.filter (fun ex => ex.start_id == s.id) [matchedExec s e]
      = [matchedExec s e] := by
    simp [matchedExec, List.filter_cons]
  rw [FluxState.from_signals, from_signalsWith_executions, List.filter_append, hsig_emit]
  simp only [List.filter_append]
  rw [h0.1, emit1_start hs, hemit_e, h2.1, h4.1, hkeep, hsig_pend, horph]
  simp [matchedExec]

/-- Concrete start signal used by the witnesses. -/
def wStart : Signal :=
  { id := "s1", r_type := "exec_start"
    payload := Json.obj [("command", Json.str "cargo"), ("args", Json.arr [Json.str "build"]),
      ("cwd", Json.str "/w")]
    timestamp := "t1" }

/-- Concrete end signal referencing `wStart`, used by the witnesses. -/
def wEnd : Signal :=
  { id := "s2", r_type := "exec_end"
    payload := Json.obj [("ref_id", Json.str "s1"), ("exit_code", Json.int 0),
      ("success", Json.bool true), ("duration_ms", Json.int 42)]
    timestamp := "t2" }

/-- Witness for C1: the concrete pair `wStart`, `wEnd` replays to exactly
one combined execution. -/
theorem C1_pairing_witness :
    List.filter (fun ex => ex.start_id == wStart.id)
        (FluxState.from_signals ([] ++ wStart :: [] ++ wEnd :: [])).executions
      = [{ command := "cargo", args := ["build"], cwd := "/w", exit_code := some 0
           success := true, duration_ms := some 42, started_at := "t1"
           ended_at := some "t2", start_id := "s1" }] := by
  have h := C1_pairing [] [] [] wStart wEnd (by decide) (by decide) (by decide) (by decide)
    (by simp) (by simp) (by simp) (by simp)
  exact h.trans (by decide)

/-- C2: a start-type signal `s` (unique holder of its id, as ids are
unique) that no end signal's `ref_id` ever references replays to exactly
one orphan `Execution`: `success = false`, `exit_code = none`,
`duration_ms = none`, `ended_at = none`, with `command`, `args`, `cwd`,
`started_at`, `start_id` taken from the start signal. The second conjunct
places that orphan after the forward-pass executions (one per end-type
signal): orphans are emitted only after the full forward pass. -/
theorem C2_orphan (pre post : List Signal) (s : Signal)
    (hs : isStartType s.r_type = true)
    (hid : s.id ≠ "")
    (hpre : ∀ x ∈ pre, isStartType x.r_type = true → x.id ≠ s.id)
    (hpost : ∀ x ∈ post, isStartType x.r_type = true → x.id ≠ s.id)
    (hend : ∀ x ∈ pre ++ s :: post, isEndType x.r_type = true → refIdOf x.payload ≠ s.id) :
    List.filter (fun ex => ex.start_id == s.id)
        (FluxState.from_signals (pre ++ s :: post)).executions
      = [{ command := commandOf s.payload, args := argsOf s.payload, cwd := cwdOf s.payload
           exit_code := none, success := false, duration_ms := none
           started_at := s.timestamp, ended_at := none, start_id := s.id }]
    ∧ List.filter (fun ex => ex.start_id == s.id)
        (((FluxState.from_signals (pre ++ s :: post)).executions).drop
          ((pre ++ s :: post).countP (fun x => isEndType x.r_type)))
      = [{ command := commandOf s.payload, args := argsOf s.payload, cwd := cwdOf s.payload
           exit_code := none, success := false, duration_ms := none
           started_at := s.timestamp, ended_at := none, start_id := s.id }] := by
  have hg₀ : goodPending (pendAfter pre []) := goodPending_pendAfter pre [] goodPending_nil
  have h0 := emitted_filter_nil s.id hid pre [] goodPending_nil rfl hpre
  have hg₁ : goodPending (pstep (pendAfter pre []) s) := goodPending_pstep hg₀ s
  have hl₁ : lookupKey (pstep (pendAfter pre []) s) s.id = some s :=
    lookupKey_pstep_start hs _
  have hpost_end : ∀ x ∈ post, isEndType x.r_type = true → refIdOf x.payload ≠ s.id :=
    fun x hx => hend x (List.mem_append_right pre (List.mem_cons_of_mem s hx))
  have h2 := emitted_filter_keep s.id hid s post (pstep (pendAfter pre []) s)
    hg₁ hl₁ hpost hpost_end
  have hg₂ : goodPending (pendAfter post (pstep (pendAfter pre []) s)) :=
    goodPending_pendAfter post _ hg₁
  have hn₂ : keysNodup (pendAfter post (pstep (pendAfter pre []) s)) := by
    have hn₀ : keysNodup (pendAfter pre []) := keysNodup_pendAfter pre [] keysNodup_nil
    exact keysNodup_pendAfter post _ (keysNodup_pstep hn₀ s)
  have horph := orphans_filter_some s.id s _ hg₂ hn₂ h2.2
  have hsig_pend : pendAfter (pre ++ s :: post) ([] : Pending)
      = pendAfter post (pstep (pendAfter pre []) s) := by
    rw [pendAfter_append pre (s :: post) ([] : Pending)]
    rfl
  have hsig_emit : emitted [] (pre ++ s :: post)
      = emitted [] pre
        ++ (emit1 (pendAfter pre []) s ++ emitted (pstep (pendAfter pre []) s) post) := by
    rw [emitted_append pre (s :: post) ([] : Pending)]
    rfl
  have hforward : List.filter (fun ex => ex.start_id == s.id)
      (emitted [] (pre ++ s :: post)) = [] := by
    rw [hsig_emit]
    simp only [List.filter_append]
    rw [h0.1, emit1_start hs, h2.1]
    rfl
  have hexec : (FluxState.from_signals (pre ++ s :: post)).executions
      = emitted [] (pre ++ s :: post)
        ++ List.map (fun kv => orphanExec kv.2) (pendAfter (pre ++ s :: post) []) := by
    rw [FluxState.from_signals, from_signalsWith_executions]
  have hlen : (emitted [] (pre ++ s :: post)).length
      = (pre ++ s :: post).countP (fun x => isEndType x.r_type) :=
    emitted_length (pre ++ s :: post) []
  constructor
  · rw [hexec, List.filter_append, hforward, hsig_pend, horph]
    rw [List.nil_append]
    rfl
  · rw [hexec, ← hlen, List.drop_left, hsig_pend, horph]
    rfl

/-- C3: an end-type signal whose `ref_id` matches no pending start at its
position still emits exactly one `Execution`, located at the end signal's
own index in the forward pass (position = number of earlier end-type
signals), with placeholder values for `command`, `args`, `cwd`,
`started_at`, `start_id` and the end signal's own `exit_code`, `success`,
`duration_ms`, `ended_at`. The second conjunct shows that no end signal is
ever dropped: the total execution count is the number of end-type signals
plus the number of orphans. -/
theorem C3_unmatched_end (pre post : List Signal) (e : Signal)
    (he : isEndType e.r_type = true)
    (hun : lookupKey (pendAfter pre []) (refIdOf e.payload) = none) :
    (FluxState.from_signals (pre ++ e :: post)).executions[(pre.countP
        (fun x => isEndType x.r_type))]?
      = some { command := "unknown", args := [], cwd := ""
               exit_code := exitCodeOf e.payload, success := successOf e.payload
               duration_ms := durationOf e.payload, started_at := ""
               ended_at := some e.timestamp, start_id := "" }
    ∧ (FluxState.from_signals (pre ++ e :: post)).executions.length
      = (pre ++ e :: post).countP (fun x => isEndType x.r_type)
        + (pendAfter (pre ++ e :: post) ([] : Pending)).length := by
  have hemit_e : emit1 (pendAfter pre []) e = [unmatchedExec e] :=
    emit1_end_unmatched he hun
  have hexec : (FluxState.from_signals (pre ++ e :: post)).executions
      = emitted [] (pre ++ e :: post)
        ++ List.map (fun kv => orphanExec kv.2) (pendAfter (pre ++ e :: post) []) := by
    rw [FluxState.from_signals, from_signalsWith_executions]
  have hsig_emit : emitted [] (pre ++ e :: post)
      = emitted [] pre
        ++ ([unmatchedExec e] ++ emitted (pstep (pendAfter pre []) e) post) := by
    rw [emitted_append pre (e :: post) ([] : Pending), ← hemit_e]
    rfl
  have hlen : (emitted [] pre).length = pre.countP (fun x => isEndType x.r_type) :=
    emitted_length pre []
  constructor
  · rw [hexec, hsig_emit, List.append_assoc, List.getElem?_append_right (le_of_eq hlen)]
    rw [← hlen, Nat.sub_self, List.append_assoc, List.singleton_append,
        List.getElem?_cons_zero]
    rfl
  · rw [hexec, List.length_append, emitted_length, List.length_map]

/-- Witness for C2: a lone start signal replays to exactly one orphan. -/
theorem C2_orphan_witness :
    List.filter (fun ex => ex.start_id == wStart.id)
        (FluxState.from_signals ([] ++ wStart :: [])).executions
      = [{ command := "cargo", args := ["build"], cwd := "/w", exit_code := none
           success := false, duration_ms := none, started_at := "t1"
           ended_at := none, start_id := "s1" }] := by
  have h := (C2_orphan [] [] wStart (by decide) (by decide) (by simp) (by simp)
    (by decide)).1
  exact h.trans (by decide)

/-- Witness for C3: a lone end signal with an unmatched `ref_id` still
yields one (placeholder) execution. -/
theorem C3_unmatched_end_witness :
    (FluxState.from_signals ([] ++ wEnd :: [])).executions[(0 : Nat)]?
      = some { command := "unknown", args := [], cwd := "", exit_code := some 0
               success := true, duration_ms := some 42, started_at := ""
               ended_at := some "t2", start_id := "" }
    ∧ (FluxState.from_signals ([] ++ wEnd :: [])).executions.length = 1 := by
  have h := C3_unmatched_end [] [] wEnd (by decide) rfl
  exact ⟨h.1.trans (by decide), h.2.trans (by decide)⟩

theorem step_fst_signal_count (st : FluxState) (p : Pending) (s : Signal) :
    (step (st, p) s).1.signal_count = st.signal_count := by
  unfold step
  by_cases h1 : (s.r_type == "init") = true
  · simp [h1]
  · by_cases h2 : isStartType s.r_type = true
    · simp [h1, h2]
    · by_cases h3 : isEndType s.r_type = true
      · simp only [h1, h2, h3]
        cases hm : lookupKey p (refIdOf s.payload) <;> simp [hm]
      · simp [h1, h2, h3]

theorem foldl_step_signal_count (l : List Signal) :
    ∀ (st : FluxState) (p : Pending), (l.foldl step (st, p)).1.signal_count = st.signal_count := by
  induction l with
  | nil => intro st p; rfl
  | cons s rest ih =>
    intro st p
    have h1 : (s :: rest).foldl step (st, p) = rest.foldl step (step (st, p) s) := rfl
    rw [h1]
    have h2 : (rest.foldl step ((step (st, p) s).1, (step (st, p) s).2)).1.signal_count
        = (step (st, p) s).1.signal_count := ih _ _
    have h3 : ((step (st, p) s).1, (step (st, p) s).2) = step (st, p) s := rfl
    rw [h3] at h2
    rw [h2, step_fst_signal_count]

theorem from_signals_signal_count (l : List Signal) :
    (FluxState.from_signals l).signal_count = l.length := by
  rw [FluxState.from_signals]
  simp only [FluxState.from_signalsWith]
  rw [foldl_step_signal_count]

/-- A start id `A` that is absent from the pending map and carried by no
start in the remaining signals never becomes pending. -/
theorem lookupKey_pendAfter_none (A : String) :
    ∀ (l : List Signal) (p : Pending), lookupKey p A = none →
      (∀ x ∈ l, isStartType x.r_type = true → x.id ≠ A) →
      lookupKey (pendAfter l p) A = none := by
  intro l
  induction l with
  | nil => intro p hl _; exact hl
  | cons s rest ih =>
    intro p hl hst
    have hrest : ∀ x ∈ rest, isStartType x.r_type = true → x.id ≠ A :=
      fun x hx => hst x (List.mem_cons_of_mem s hx)
    refine ih (pstep p s) ?_ hrest
    by_cases c1 : (s.r_type == "init") = true
    · rw [pstep_init c1]; exact hl
    · by_cases c2 : isStartType s.r_type = true
      · rw [pstep_start c2]
        rw [lookupKey_insert_ne (fun hc => hst s (List.mem_cons_self s rest) c2 hc.symm) p s]
        exact hl
      · by_cases c3 : isEndType s.r_type = true
        · rw [pstep_end c3]
          by_cases hr : refIdOf s.payload = A
          · rw [hr]; exact lookupKey_eraseKey_self p A
          · rw [lookupKey_eraseKey_ne (fun hc => hr hc.symm) p]; exact hl
        · rw [pstep_other (Bool.not_eq_true _ ▸ c1) (Bool.not_eq_true _ ▸ c2)
              (Bool.not_eq_true _ ▸ c3)]
          exact hl

/-- C10 (amended): replay is total over arbitrary payload shapes and
applies the documented defaults. An end-type signal whose `ref_id` is
missing or not a string gets the defaulted reference, the empty string;
when no start pending at that point carries the empty id, it emits the
placeholder execution (command `"unknown"`, empty args and cwd, empty
`start_id`). A missing or non-boolean `success` defaults to `false`; a
missing or mistyped `command` defaults to `"unknown"`; missing or
mistyped `args` default to `[]`; non-integer `exit_code` and
`duration_ms` parse to `none`; and replay never fails: every signal list
yields a state whose `signal_count` is the input length. -/
theorem C10_defaults (pre post : List Signal) (e : Signal)
    (he : isEndType e.r_type = true)
    (habs : (e.payload.get "ref_id").bind Json.asStr = none)
    (hempty : ∀ x ∈ pre, isStartType x.r_type = true → x.id ≠ "") :
    (FluxState.from_signals (pre ++ e :: post)).executions[(pre.countP
        (fun x => isEndType x.r_type))]?
      = some { command := "unknown", args := [], cwd := ""
               exit_code := exitCodeOf e.payload, success := successOf e.payload
               duration_ms := durationOf e.payload, started_at := ""
               ended_at := some e.timestamp, start_id := "" }
    ∧ ((e.payload.get "success").bind Json.asBool = none → successOf e.payload = false)
    ∧ (∀ p' : Json, p'.get "command" = none → commandOf p' = "unknown")
    ∧ (∀ p' : Json, p'.get "args" = none → argsOf p' = [])
    ∧ (∀ j : Json, (∀ b : Bool, j ≠ Json.bool b) → Json.asBool j = none)
    ∧ (∀ j : Json, (∀ n : Int, j ≠ Json.int n) → Json.asI64 j = none)
    ∧ (∀ j : Json, (∀ n : Int, j ≠ Json.int n) → Json.asU64 j = none)
    ∧ (∀ l : List Signal, (FluxState.from_signals l).signal_count = l.length) := by
  have href : refIdOf e.payload = "" := by
    unfold refIdOf; rw [habs]; rfl
  have hun : lookupKey (pendAfter pre []) (refIdOf e.payload) = none := by
    rw [href]; exact lookupKey_pendAfter_none "" pre [] rfl hempty
  refine ⟨?_, ?_, ?_, ?_, ?_, ?_, ?_, ?_⟩
  · have hemit_e : emit1 (pendAfter pre []) e = [unmatchedExec e] :=
      emit1_end_unmatched he hun
    have hexec : (FluxState.from_signals (pre ++ e :: post)).executions
        = emitted [] (pre ++ e :: post)
          ++ List.map (fun kv => orphanExec kv.2) (pendAfter (pre ++ e :: post) []) := by
      rw [FluxState.from_signals, from_signalsWith_executions]
    have hsig_emit : emitted [] (pre ++ e :: post)
        = emitted [] pre
          ++ ([unmatchedExec e] ++ emitted (pstep (pendAfter pre []) e) post) := by
      rw [emitted_append pre (e :: post) ([] : Pending), ← hemit_e]
      rfl
    have hlen : (emitted [] pre).length = pre.countP (fun x => isEndType x.r_type) :=
      emitted_length pre []
    rw [hexec, hsig_emit, List.append_assoc, List.getElem?_append_right (le_of_eq hlen)]
    rw [← hlen, Nat.sub_self, List.append_assoc, List.singleton_append,
        List.getElem?_cons_zero]
    rfl
  · intro h; unfold successOf; rw [h]; rfl
  · intro p' h; unfold commandOf; rw [h]; rfl
  · intro p' h; unfold argsOf; rw [h]; rfl
  · intro j h
    cases j with
    | bool b => exact absurd rfl (h b)
    | _ => rfl
  · intro j h
    cases j with
    | int n => exact absurd rfl (h n)
    | _ => rfl
  · intro j h
    cases j with
    | int n => exact absurd rfl (h n)
    | _ => rfl
  · intro l
    exact from_signals_signal_count l

/-- Pathological end signal with an entirely empty payload, used by the
C10 witness. -/
def wNoRef : Signal :=
  { id := "e9", r_type := "exec_end", payload := Json.obj [], timestamp := "t9" }

/-- Witness for C10: an end signal with an empty payload replays to the
fully defaulted placeholder execution. -/
theorem C10_defaults_witness :
    (FluxState.from_signals ([] ++ wNoRef :: [])).executions[(0 : Nat)]?
      = some { command := "unknown", args := [], cwd := "", exit_code := none
               success := false, duration_ms := none, started_at := ""
               ended_at := some "t9", start_id := "" }
    ∧ successOf wNoRef.payload = false
    ∧ Json.asBool (Json.str "yes") = none
    ∧ Json.asI64 (Json.str "3") = none := by
  have h := C10_defaults [] [] wNoRef (by decide) rfl (by simp)
  exact ⟨h.1.trans (by decide), h.2.1 rfl,
    h.2.2.2.2.1 (Json.str "yes") (by intro b hc; cases hc),
    h.2.2.2.2.2.1 (Json.str "3") (by intro n hc; cases hc)⟩

/-- Start signal whose id is the empty string, used by the C10
counterexample. -/
def cStartEmpty : Signal :=
  { id := "", r_type := "exec_start", payload := Json.obj [("command", Json.str "tick")]
    timestamp := "tS" }

/-- End signal with no `ref_id` at all, used by the C10 counterexample. -/
def cEndNoRef : Signal :=
  { id := "e1", r_type := "exec_end", payload := Json.obj [], timestamp := "tE" }

/-- Counterexample for C10 as stated: the defaulted `ref_id` (the empty
string) does match a pending start when a start signal carries the empty
id — the execution takes `command` and `started_at` from that start
instead of the placeholder values the claim requires. -/
theorem C10_cex :
    ((FluxState.from_signals [cStartEmpty, cEndNoRef]).executions.map
        (fun ex => (ex.command, ex.start_id, ex.started_at)))
      = [("tick", "", "tS")] := by decide

/-- Second concrete start signal (distinct id), used by the C8
counterexample: two unmatched starts leave two orphans. -/
def wStart2 : Signal := { wStart with id := "z9" }

/-- Counterexample for C8 as stated: the orphan-materialisation order is
the iteration order of a Rust `HashMap`, which is not a function of the
input; modelling that order as a permutation parameter, two valid orders
produce different execution lists for the same signal sequence. -/
theorem C8_cex :
    ¬ (∀ (r₁ r₂ : Pending → Pending),
        (∀ l : Pending, (r₁ l).Perm l) → (∀ l : Pending, (r₂ l).Perm l) →
        ∀ sigs : List Signal,
          FluxState.from_signalsWith r₁ sigs = FluxState.from_signalsWith r₂ sigs) := by
  intro h
  have h2 := h (fun l => l) List.reverse (fun l => List.Perm.refl l)
    (fun l => List.reverse_perm l) [wStart, wStart2]
  have h3 : (FluxState.from_signalsWith (fun l => l) [wStart, wStart2]).executions.map
        (fun ex => ex.start_id)
      = (FluxState.from_signalsWith List.reverse [wStart, wStart2]).executions.map
        (fun ex => ex.start_id) := by
    rw [h2]
  exact absurd h3 (by decide)

/-- C8 (amended): replay is deterministic up to the orphan-materialisation
order. For any two permutation-producing iteration orders, the two replays
agree on `project_path`, `version`, `initialized_at` and `signal_count`;
the forward-pass executions (the first `countP isEndType` entries) are
identical; and the full execution lists are permutations of each other,
differing only in the order of the trailing orphans. -/
theorem C8_perm (r₁ r₂ : Pending → Pending)
    (h₁ : ∀ l : Pending, (r₁ l).Perm l) (h₂ : ∀ l : Pending, (r₂ l).Perm l)
    (sigs : List Signal) :
    (FluxState.from_signalsWith r₁ sigs).project_path
        = (FluxState.from_signalsWith r₂ sigs).project_path
    ∧ (FluxState.from_signalsWith r₁ sigs).version
        = (FluxState.from_signalsWith r₂ sigs).version
    ∧ (FluxState.from_signalsWith r₁ sigs).initialized_at
        = (FluxState.from_signalsWith r₂ sigs).initialized_at
    ∧ (FluxState.from_signalsWith r₁ sigs).signal_count
        = (FluxState.from_signalsWith r₂ sigs).signal_count
    ∧ (FluxState.from_signalsWith r₁ sigs).executions.take
          (sigs.countP (fun x => isEndType x.r_type))
        = (FluxState.from_signalsWith r₂ sigs).executions.take
          (sigs.countP (fun x => isEndType x.r_type))
    ∧ ((FluxState.from_signalsWith r₁ sigs).executions).Perm
        ((FluxState.from_signalsWith r₂ sigs).executions) := by
  refine ⟨rfl, rfl, rfl, rfl, ?_, ?_⟩
  · rw [from_signalsWith_executions, from_signalsWith_executions]
    rw [← emitted_length sigs [], List.take_left, List.take_left]
  · rw [from_signalsWith_executions, from_signalsWith_executions]
    refine List.Perm.append_left _ ?_
    exact ((h₁ (pendAfter sigs [])).map _).trans ((h₂ (pendAfter sigs [])).map _).symm

/-- Witness for C8 (amended): with the identity and the reversing
iteration orders on two orphans, the two replays produce permuted
execution lists. -/
theorem C8_perm_witness :
    ((FluxState.from_signalsWith (fun l => l) [wStart, wStart2]).executions).Perm
      ((FluxState.from_signalsWith List.reverse [wStart, wStart2]).executions) :=
  (C8_perm (fun l => l) List.reverse (fun l => List.Perm.refl l)
    (fun l => List.reverse_perm l) [wStart, wStart2]).2.2.2.2.2

/-- A successful `find?` splits its list at the first hit. -/
theorem find?_eq_some_split {α : Type} (p : α → Bool) :
    ∀ (l : List α) (a : α), l.find? p = some a ↔
      ∃ l₁ l₂, l = l₁ ++ a :: l₂ ∧ p a = true ∧ ∀ x ∈ l₁, p x = false := by
  intro l
  induction l with
  | nil =>
    intro a
    constructor
    · intro h; cases h
    · rintro ⟨l₁, l₂, h, -, -⟩
      cases l₁ <;> cases h
  | cons b rest ih =>
    intro a
    by_cases hb : p b = true
    · rw [List.find?_cons_of_pos rest hb]
      constructor
      · intro h
        cases Option.some.inj h
        exact ⟨[], rest, rfl, hb, by simp⟩
      · rintro ⟨l₁, l₂, hsplit, hpa, hall⟩
        cases l₁ with
        | nil =>
          cases List.cons.inj hsplit |>.1
          rfl
        | cons c l₁ =>
          obtain ⟨hbc, -⟩ := List.cons.inj hsplit
          have := hall c (List.mem_cons_self c l₁)
          rw [← hbc, hb] at this
          cases this
    · rw [List.find?_cons_of_neg rest hb]
      rw [ih a]
      constructor
      · rintro ⟨l₁, l₂, hsplit, hpa, hall⟩
        refine ⟨b :: l₁, l₂, by rw [hsplit]; rfl, hpa, ?_⟩
        intro x hx
        rcases List.mem_cons.mp hx with rfl | hx
        · exact Bool.not_eq_true _ ▸ hb
        · exact hall x hx
      · rintro ⟨l₁, l₂, hsplit, hpa, hall⟩
        cases l₁ with
        | nil =>
          cases List.cons.inj hsplit |>.1
          exact absurd hpa hb
        | cons c l₁ =>
          obtain ⟨-, hrest⟩ := List.cons.inj hsplit
          exact ⟨l₁, l₂, hrest, hpa, fun x hx => hall x (List.mem_cons_of_mem c hx)⟩

/-- C4: the undo candidate is computed by collecting the `target_id`
values of all undo signals and scanning the history backwards for the
most recent `add`/`remove` signal whose id is not in that set. The first
conjunct characterises a successful scan: the candidate is an undoable
signal followed only by non-undoable signals; the second characterises
failure: undo is unavailable exactly when no signal of the history is
undoable. -/
theorem C4_undo_selection (sigs : List Signal) :
    (∀ t : Signal, undoCandidate sigs = some t ↔
      ∃ pre post, sigs = pre ++ t :: post ∧ isUndoable sigs t = true
        ∧ ∀ x ∈ post, isUndoable sigs x = false)
    ∧ (undoCandidate sigs = none ↔ ∀ x ∈ sigs, isUndoable sigs x = false) := by
  constructor
  · intro t
    rw [undoCandidate, find?_eq_some_split]
    constructor
    · rintro ⟨l₁, l₂, hsplit, hp, hall⟩
      refine ⟨l₂.reverse, l₁.reverse, ?_, hp, fun x hx => hall x (List.mem_reverse.mp hx)⟩
      have := congrArg List.reverse hsplit
      rw [List.reverse_reverse] at this
      rw [this]
      simp [List.reverse_append]
    · rintro ⟨pre, post, hsplit, hp, hall⟩
      refine ⟨post.reverse, pre.reverse, ?_, hp, fun x hx => hall x (List.mem_reverse.mp hx)⟩
      rw [hsplit]
      simp [List.reverse_append]
  · rw [undoCandidate, List.find?_eq_none]
    constructor
    · intro h x hx
      exact Bool.not_eq_true _ ▸ h x (List.mem_reverse.mpr hx)
    · intro h x hx
      rw [h x (List.mem_reverse.mp hx)]
      simp

/-- The `add(id=1)` signal of the spec's undo-selection example. -/
def c4add : Signal :=
  { id := "1", r_type := "add", payload := Json.obj [("gem", Json.str "A")], timestamp := "u1" }

/-- The `remove(id=2)` signal of the spec's undo-selection example. -/
def c4rem : Signal :=
  { id := "2", r_type := "remove", payload := Json.obj [("gem", Json.str "B")], timestamp := "u2" }

/-- The `undo(target_id=2)` signal of the spec's undo-selection example. -/
def c4undo : Signal :=
  { id := "3", r_type := "undo", payload := Json.obj [("target_id", Json.str "2")]
    timestamp := "u3" }

/-- Witness for C4: on `[add(id=1), remove(id=2), undo(target_id=2)]` the
selected candidate is the signal with id 1. -/
theorem C4_undo_selection_witness :
    undoCandidate [c4add, c4rem, c4undo] = some c4add ∧ c4add.id = "1" :=
  ⟨((C4_undo_selection [c4add, c4rem, c4undo]).1 c4add).mpr
      ⟨[], [c4rem, c4undo], rfl, by decide, by decide⟩, rfl⟩

/-! Stats lemmas. -/

theorem length_filter_partition (p : Execution → Bool) :
    ∀ l : List Execution,
      (l.filter p).length + (l.filter (fun x => !p x)).length = l.length := by
  intro l
  induction l with
  | nil => rfl
  | cons a l ih =>
    by_cases hp : p a = true
    · rw [List.filter_cons_of_pos hp,
          List.filter_cons_of_neg (p := fun x => !p x) (by simp [hp])]
      simp only [List.length_cons]
      omega
    · have hp' : p a = false := Bool.not_eq_true _ ▸ hp
      rw [List.filter_cons_of_neg hp,
          List.filter_cons_of_pos (p := fun x => !p x) (by simp [hp'])]
      simp only [List.length_cons]
      omega

theorem foldl_wrap_mod (m : Nat) :
    ∀ (ds : List Nat) (acc : Nat),
      ds.foldl (fun a b => (a + b) % m) (acc % m) = (acc + ds.sum) % m := by
  intro ds
  induction ds with
  | nil => intro acc; simp
  | cons b rest ih =>
    intro acc
    show rest.foldl _ ((acc % m + b) % m) = _
    have h1 : (acc % m + b) % m = (acc + b) % m := by
      conv_lhs => rw [Nat.add_mod, Nat.mod_mod_of_dvd acc (dvd_refl m)]
      conv_rhs => rw [Nat.add_mod]
    rw [h1, ih (acc + b), List.sum_cons]
    ring_nf

/-- One `insertGroup` step preserves the grouping invariant: for every
command `c`, the accumulated groups filtered to key `c` hold exactly the
processed executions with that command. -/
theorem insertGroup_inv {acc : List (String × List Execution)} {l : List Execution}
    (hinv : ∀ c : String, acc.filter (fun kv => kv.1 == c)
      = if l.filter (fun x => x.command == c) = [] then []
        else [(c, l.filter (fun x => x.command == c))])
    (e : Execution) :
    ∀ c : String, (insertGroup acc e).filter (fun kv => kv.1 == c)
      = if (l ++ [e]).filter (fun x => x.command == c) = [] then []
        else [(c, (l ++ [e]).filter (fun x => x.command == c))] := by
  intro c
  have hfe : (l ++ [e]).filter (fun x => x.command == c)
      = l.filter (fun x => x.command == c) ++ (if e.command = c then [e] else []) := by
    rw [List.filter_append]
    congr 1
    by_cases hc : e.command = c
    · simp [List.filter_cons, hc]
    · simp [List.filter_cons, hc]
  by_cases hany : acc.any (fun kv => kv.1 == e.command) = true
  · have hg : insertGroup acc e
        = acc.map (fun kv => if kv.1 == e.command then (kv.1, kv.2 ++ [e]) else kv) := by
      simp [insertGroup, hany]
    have hkeys : ∀ kv ∈ acc,
        ((fun kv : String × List Execution => kv.1 == c)
          ∘ (fun kv : String × List Execution =>
              if kv.1 == e.command then (kv.1, kv.2 ++ [e]) else kv)) kv
          = (kv.1 == c) := by
      intro kv _
      by_cases hk : kv.1 = e.command
      · simp [Function.comp, hk]
      · simp [Function.comp, hk]
    rw [hg, List.filter_map, List.filter_congr hkeys]
    rw [hinv c]
    by_cases hl : l.filter (fun x => x.command == c) = []
    · rw [if_pos hl]
      have hec : e.command ≠ c := by
        intro hc
        obtain ⟨kv, hkv, hk⟩ := List.any_eq_true.mp hany
        have hkc : (kv.1 == c) = true := by
          rw [beq_iff_eq] at hk ⊢; rw [hk, hc]
        have hmem : kv ∈ acc.filter (fun kv => kv.1 == c) :=
          List.mem_filter.mpr ⟨hkv, hkc⟩
        rw [hinv c, if_pos hl] at hmem
        cases hmem
      rw [hfe, hl, if_neg hec]
      simp
    · rw [if_neg hl]
      by_cases hec : e.command = c
      · have hce : ((c : String) == e.command) = true := by rw [beq_iff_eq, hec]
        rw [hfe, if_pos hec]
        simp only [List.map_cons, List.map_nil, hce, if_true]
        rw [if_neg (by simp)]
      · have hpr : ¬(c = e.command) := fun hc => hec hc.symm
        rw [hfe, if_neg hec]
        simp [hpr, hl]
  · have hg : insertGroup acc e = acc ++ [(e.command, [e])] := by
      simp only [insertGroup]
      rw [if_neg hany]
    rw [hg, List.filter_append]
    by_cases hec : e.command = c
    · have hl : l.filter (fun x => x.command == c) = [] := by
        by_contra hne
        have h1 := hinv c
        rw [if_neg hne] at h1
        have hmem : (c, l.filter (fun x => x.command == c)) ∈ acc := by
          have : (c, l.filter (fun x => x.command == c))
              ∈ acc.filter (fun kv => kv.1 == c) := by
            rw [h1]; exact List.mem_cons_self _ _
          exact (List.mem_filter.mp this).1
        exact hany (List.any_eq_true.mpr
          ⟨_, hmem, by rw [beq_iff_eq]; exact hec.symm⟩)
      rw [hinv c, if_pos hl, hfe, hl, if_pos hec]
      subst hec
      simp
    · have hce : ((e.command) == c) = false := by rw [beq_eq_false_iff_ne]; exact hec
      rw [hinv c, hfe, if_neg hec]
      simp [List.filter_cons, hce]

/-- The grouping pass of `command_stats`: for every command `c`, the
groups filtered to key `c` hold exactly the executions with that literal
command string (and nothing when the command never occurs). -/
theorem groupByCommand_filter (execs : List Execution) :
    ∀ c : String, (groupByCommand execs).filter (fun kv => kv.1 == c)
      = if execs.filter (fun x => x.command == c) = [] then []
        else [(c, execs.filter (fun x => x.command == c))] := by
  suffices h : ∀ (rest : List Execution) (acc : List (String × List Execution))
      (l : List Execution),
      (∀ c : String, acc.filter (fun kv => kv.1 == c)
        = if l.filter (fun x => x.command == c) = [] then []
          else [(c, l.filter (fun x => x.command == c))]) →
      ∀ c : String, (rest.foldl insertGroup acc).filter (fun kv => kv.1 == c)
        = if (l ++ rest).filter (fun x => x.command == c) = [] then []
          else [(c, (l ++ rest).filter (fun x => x.command == c))] by
    intro c
    have := h execs [] [] (fun c => by simp) c
    simpa using this
  intro rest
  induction rest with
  | nil =>
    intro acc l hinv c
    simpa using hinv c
  | cons e rest ih =>
    intro acc l hinv c
    have hstep := insertGroup_inv hinv e
    have := ih (insertGroup acc e) (l ++ [e]) hstep c
    simpa [List.append_assoc] using this

/-- Modelled on the spec's words (section 4.4): the statistics of command
`c` computed directly from the execution list — count, success/failure
partition, integer mean of the durations present, lexicographically
maximal `started_at`. -/
def specStatsFor (execs : List Execution) (c : String) : CommandStats :=
  let g := execs.filter (fun e => e.command == c)
  let ds := g.filterMap (fun e => e.duration_ms)
  { command := c
    total_runs := g.length
    successes := (g.filter (fun e => e.success)).length
    failures := (g.filter (fun e => !e.success)).length
    avg_duration_ms := if ds.isEmpty then none else some (ds.sum / ds.length)
    last_run := (g.map (fun e => e.started_at)).foldl strMax "" }

/-- The wrapped `u64` average equals the exact integer mean when neither
the sum nor the count wraps. -/
theorem wrap_avg (ds : List Nat) (h1 : ds.sum < u64Mod) (h2 : ds.length < u64Mod) :
    (if ds.isEmpty then (none : Option Nat)
      else some ((ds.foldl (fun a b => (a + b) % u64Mod) 0) / (ds.length % u64Mod)))
      = (if ds.isEmpty then none else some (ds.sum / ds.length)) := by
  by_cases hd : ds.isEmpty = true
  · rw [if_pos hd, if_pos hd]
  · rw [if_neg hd, if_neg hd, Option.some.injEq]
    have h0 : (0 : Nat) = 0 % u64Mod := (Nat.zero_mod _).symm
    conv_lhs => rw [h0]
    rw [foldl_wrap_mod, Nat.zero_add, Nat.mod_eq_of_lt h1, Nat.mod_eq_of_lt h2]

theorem statsOfGroup_eq_spec (execs : List Execution) (c : String)
    (hsum : ((execs.filter (fun e => e.command == c)).filterMap
      (fun e => e.duration_ms)).sum < u64Mod)
    (hlen : ((execs.filter (fun e => e.command == c)).filterMap
      (fun e => e.duration_ms)).length < u64Mod) :
    statsOfGroup (c, execs.filter (fun e => e.command == c)) = specStatsFor execs c := by
  have hfail : (execs.filter (fun e => e.command == c)).length
      - ((execs.filter (fun e => e.command == c)).filter (fun e => e.success)).length
      = ((execs.filter (fun e => e.command == c)).filter (fun e => !e.success)).length := by
    have := length_filter_partition (fun e => e.success)
      (execs.filter (fun e => e.command == c))
    omega
  simp only [statsOfGroup, specStatsFor]
  rw [hfail, wrap_avg _ hsum hlen]

/-- C5: for every execution list, `command_stats` produces exactly one
group per occurring command `c`, whose `total_runs` counts the executions
with that literal command string, whose `successes`/`failures` partition
them by the `success` flag, whose `avg_duration_ms` is the (integer) mean
over only the executions carrying a `duration_ms` (`none` when no such
execution exists), and whose `last_run` is the lexicographically maximal
`started_at`. The `u64Mod` bounds make the Rust `u64` sum and length cast
exact. -/
theorem C5_command_stats (execs : List Execution) (c : String)
    (hmem : c ∈ execs.map (fun e => e.command))
    (hsum : ((execs.filter (fun e => e.command == c)).filterMap
      (fun e => e.duration_ms)).sum < u64Mod)
    (hlen : ((execs.filter (fun e => e.command == c)).filterMap
      (fun e => e.duration_ms)).length < u64Mod) :
    (commandStats execs).filter (fun st => st.command == c) = [specStatsFor execs c] := by
  have hne : execs.filter (fun e => e.command == c) ≠ [] := by
    obtain ⟨e, he, hec⟩ := List.mem_map.mp hmem
    exact List.ne_nil_of_mem (List.mem_filter.mpr ⟨he, by rw [beq_iff_eq]; exact hec⟩)
  have hinv := groupByCommand_filter execs c
  rw [if_neg hne] at hinv
  have hperm : (commandStats execs).Perm ((groupByCommand execs).map statsOfGroup) :=
    List.perm_insertionSort _ _
  have hfil := hperm.filter (fun st => st.command == c)
  have hmap : ((groupByCommand execs).map statsOfGroup).filter (fun st => st.command == c)
      = ((groupByCommand execs).filter (fun kv => kv.1 == c)).map statsOfGroup := by
    rw [List.filter_map]
    congr 1
  rw [hmap, hinv] at hfil
  have hone := List.perm_singleton.mp hfil
  rw [hone, statsOfGroup_eq_spec execs c hsum hlen]

/-- The spec's stats example: three runs of `"rspec"` with durations
100, 200, 300 and success true, true, false. -/
def c5sigs : List Signal :=
  [ { id := "a", r_type := "exec_start"
      payload := Json.obj [("command", Json.str "rspec")], timestamp := "t1" },
    { id := "ae", r_type := "exec_end"
      payload := Json.obj [("ref_id", Json.str "a"), ("success", Json.bool true),
        ("duration_ms", Json.int 100)], timestamp := "t2" },
    { id := "b", r_type := "exec_start"
      payload := Json.obj [("command", Json.str "rspec")], timestamp := "t3" },
    { id := "be", r_type := "exec_end"
      payload := Json.obj [("ref_id", Json.str "b"), ("success", Json.bool true),
        ("duration_ms", Json.int 200)], timestamp := "t4" },
    { id := "c", r_type := "exec_start"
      payload := Json.obj [("command", Json.str "rspec")], timestamp := "t5" },
    { id := "ce", r_type := "exec_end"
      payload := Json.obj [("ref_id", Json.str "c"), ("success", Json.bool false),
        ("duration_ms", Json.int 300)], timestamp := "t6" } ]

/-- Witness for C5: the spec's example yields `total_runs = 3`,
`successes = 2`, `failures = 1`, `avg_duration_ms = 200`. -/
theorem C5_command_stats_witness :
    (commandStats (FluxState.from_signals c5sigs).executions).filter
        (fun st => st.command == "rspec")
      = [{ command := "rspec", total_runs := 3, successes := 2, failures := 1
           avg_duration_ms := some 200, last_run := "t5" }] := by
  have h := C5_command_stats (FluxState.from_signals c5sigs).executions "rspec"
    (by decide) (by decide) (by decide)
  exact h.trans (by decide)

/-- C6 (code evaluated at the failing input): on a fresh filesystem,
`FluxProject::init` succeeds but creates only the `.flux` directory and
never the `signals.jsonl` log file its own doc comment promises; because
the `AlreadyInitialized` guard checks that very file, a second `init` on
the same root also succeeds instead of failing. -/
theorem C6_init_bug :
    FluxProject.init ⟨[], []⟩ "/p"
      = .ok (⟨["/p/.flux", "/p"], []⟩,
             ⟨"/p", "/p/.flux", "/p/.flux/signals.jsonl"⟩)
    ∧ pathExists ⟨["/p/.flux", "/p"], []⟩ "/p/.flux/signals.jsonl" = false
    ∧ FluxProject.init ⟨["/p/.flux", "/p"], []⟩ "/p"
      = .ok (⟨["/p/.flux", "/p", "/p/.flux", "/p"], []⟩,
             ⟨"/p", "/p/.flux", "/p/.flux/signals.jsonl"⟩) :=
  ⟨rfl, rfl, rfl⟩

/-- Counterexample for C7 as stated: with the `.flux` directory present
but the log file absent, `open` succeeds — it does not fail exactly when
the log file is absent. -/
theorem C7_cex :
    pathExists ⟨["/p/.flux"], []⟩ "/p/.flux/signals.jsonl" = false
    ∧ FluxProject.open' ⟨["/p/.flux"], []⟩ "/p"
        = .ok ⟨"/p", "/p/.flux", "/p/.flux/signals.jsonl"⟩ :=
  ⟨rfl, rfl⟩

/-- C7 (amended): `FluxProject::open` fails with `NotInitialized` exactly
when the `.flux` directory path does not exist — the log file itself is
never consulted — and succeeds otherwise. -/
theorem C7_open_iff (fs : FS) (root : String) :
    FluxProject.open' fs root = .error .notInitialized
      ↔ pathExists fs (fluxDirOf root) = false := by
  unfold FluxProject.open'
  by_cases h : pathExists fs (fluxDirOf root) = true
  · simp [h]
  · have h' : pathExists fs (fluxDirOf root) = false := Bool.not_eq_true _ ▸ h
    simp [h']

/-- Witness for C7 (amended): on an empty filesystem, `open` fails with
`NotInitialized`. -/
theorem C7_open_iff_witness :
    FluxProject.open' ⟨[], []⟩ "/p" = .error .notInitialized :=
  (C7_open_iff ⟨[], []⟩ "/p").mpr rfl

/-- C9: `read_signals` on a project whose log file does not exist returns
the empty signal list rather than an error, and the empty list replays to
the empty state (no project fields, no executions, zero signals). -/
theorem C9_read_missing (decodeLine : String → Option Signal) (fs : FS)
    (proj : FluxProject) (h : pathExists fs proj.signal_file = false) :
    FluxProject.read_signals decodeLine fs proj = .ok []
    ∧ FluxState.from_signals []
      = { project_path := none, version := none, initialized_at := none
          executions := [], signal_count := 0 } := by
  constructor
  · unfold FluxProject.read_signals
    simp [h]
  · rfl

/-- Witness for C9: an opened project that never appended a signal reads
back the empty list and replays to the empty state. -/
theorem C9_read_missing_witness :
    FluxProject.read_signals (fun _ => none) ⟨["/p/.flux"], []⟩
        ⟨"/p", "/p/.flux", "/p/.flux/signals.jsonl"⟩ = .ok []
    ∧ (FluxState.from_signals []).executions = [] := by
  have h := C9_read_missing (fun _ => none) ⟨["/p/.flux"], []⟩
    ⟨"/p", "/p/.flux", "/p/.flux/signals.jsonl"⟩ rfl
  exact ⟨h.1, by rw [h.2]⟩

end Arc
